import Mathlib

/-!
Shallow embedding of the multi-stage retrieval pipeline: the weighted fusion
retriever, the cross-encoder reranked retriever, the configurable
RetrievalPipeline, and the LRU query-result cache with its cache-key
construction.  Python floats are modelled as rationals, Python dictionaries
as insertion-ordered association lists, and Python exceptions with `Except`.
-/

/-- A text node as indexed by the notebook (`TextNode(text, id_)`): a stable
identifier and its content. -/
structure TextNode where
  node_id : String
  text : String
deriving DecidableEq

/-- A retrieval result (`NodeWithScore`): a node together with a relevance
score. -/
structure NodeWithScore where
  node : TextNode
  score : ℚ
deriving DecidableEq

/-- Python exceptions raised by the embedded code. -/
inductive PyErr where
  | valueError
  | stopIteration
  | indexError
  | rerankerUnavailable
deriving DecidableEq

/-- Stable insertion of `x` into a list already sorted by score descending:
`x` moves past strictly greater scores only, so it lands after any element of
equal score, exactly as Python's stable `sorted(key=..., reverse=True)`
places later-encountered elements after earlier ones. -/
def insertByScore (x : NodeWithScore) : List NodeWithScore → List NodeWithScore
  | [] => [x]
  | y :: ys => if x.score < y.score then y :: insertByScore x ys else x :: y :: ys

/-- Stable sort by score descending, the behaviour of Python's
`sorted(results, key=lambda x: x.score, reverse=True)` (Timsort is stable,
and stable descending sort is uniquely determined by the key). -/
def sortByScoreDesc : List NodeWithScore → List NodeWithScore
  | [] => []
  | x :: xs => insertByScore x (sortByScoreDesc xs)

/-- Association-list lookup, first match: Python `d[k]` / `d.get(k)` on an
insertion-ordered dict. -/
def lookupA {K α : Type} [DecidableEq K] : List (K × α) → K → Option α
  | [], _ => none
  | (k', v) :: t, k => if k' = k then some v else lookupA t k

/-- Association-list update: Python `d[k] = v`, which replaces in place when
the key exists (preserving its position) and appends otherwise. -/
def setA {K α : Type} [DecidableEq K] : List (K × α) → K → α → List (K × α)
  | [], k, v => [(k, v)]
  | (k', v') :: t, k, v => if k' = k then (k', v) :: t else (k', v') :: setA t k v

/-- Association-list deletion of the (unique, for dict states) entry with the
given key: Python `del d[k]`. -/
def delKey {K α : Type} [DecidableEq K] (k : K) : List (K × α) → List (K × α)
  | [] => []
  | (k', v) :: t => if k' = k then t else (k', v) :: delKey k t

/-- Removal of the first occurrence of an element: Python `list.remove(x)`
(the embedded cache only calls it when the element is present). -/
def removeFirst {K : Type} [DecidableEq K] (k : K) : List K → List K
  | [] => []
  | a :: t => if a = k then t else a :: removeFirst k t

/-- Python slice `xs[:k]`: for nonnegative `k` the first `k` elements, for
negative `k` everything but the last `-k` elements. -/
def pysliceTake {α : Type} (k : Int) (xs : List α) : List α :=
  if 0 ≤ k then xs.take k.toNat else xs.take (xs.length - (-k).toNat)

/-- One step of the fusion accumulation: the body of the inner loop of
`WeightedFusionRetriever._retrieve`.  If `node.node_id` is not yet a key of
`all_results` a fresh entry `{"node": node, "scores": {}}` is appended (the
stored node is the first one seen for that id); then
`all_results[node_id]["scores"][name] = ws`. -/
def fuseInsert (all_results : List (String × TextNode × List (String × ℚ)))
    (name : String) (node : TextNode) (ws : ℚ) :
    List (String × TextNode × List (String × ℚ)) :=
  match all_results with
  | [] => [(node.node_id, node, [(name, ws)])]
  | (id0, n0, sc0) :: t =>
    if id0 = node.node_id then (id0, n0, setA sc0 name ws) :: t
    else (id0, n0, sc0) :: fuseInsert t name node ws

/-- Accumulate one named retriever's result list into `all_results`, weighting
each score by `weights.get(name, 1.0)`. -/
def fuseSource (weights : List (String × ℚ))
    (all_results : List (String × TextNode × List (String × ℚ)))
    (name : String) (results : List NodeWithScore) :
    List (String × TextNode × List (String × ℚ)) :=
  results.foldl
    (fun acc node => fuseInsert acc name node.node (node.score * ((lookupA weights name).getD 1)))
    all_results

/-- The full `all_results` dict built by `WeightedFusionRetriever._retrieve`
from the named candidate lists. -/
def fuseAll (named_results : List (String × List NodeWithScore))
    (weights : List (String × ℚ)) : List (String × TextNode × List (String × ℚ)) :=
  named_results.foldl (fun acc p => fuseSource weights acc p.1 p.2) []

/-- The fusion combiner `WeightedFusionRetriever._retrieve`, applied to the
candidate lists the sub-retrievers returned: build `all_results`, form
`final_results` with `score = sum(scores.values())`, and return
`sorted(final_results, key=lambda x: x.score, reverse=True)`.  Note the
source neither truncates to a `top_k` nor breaks ties by document id. -/
def weightedFusionRetrieve (named_results : List (String × List NodeWithScore))
    (weights : List (String × ℚ)) : List NodeWithScore :=
  sortByScoreDesc
    ((fuseAll named_results weights).map
      (fun e => ⟨e.2.1, (e.2.2.map Prod.snd).foldl (fun s x => s + x) 0⟩))

/-- The two-stage reranker `RerankedRetriever._retrieve`, applied to the base
retriever's result list.  `predict` is the external cross-encoder
`self.reranker.predict`, which may fail (modelled with `Except`).  The
returned Boolean records whether the cross-encoder was invoked.  The guard
`if not base_nodes: return []` fires before any model call; `self.top_k`
being falsy (zero) skips the final truncation, and both slicings are Python
slices. -/
def rerankedRetrieve (baseResults : List NodeWithScore)
    (predict : List (String × String) → Except PyErr (List ℚ))
    (fetch_k top_k : Int) (q : String) :
    Except PyErr (List NodeWithScore) × Bool :=
  let base_nodes := pysliceTake fetch_k baseResults
  if base_nodes.isEmpty then (Except.ok [], false)
  else
    match predict (base_nodes.map (fun n => (q, n.node.text))) with
    | Except.error e => (Except.error e, true)
    | Except.ok rerank_scores =>
      let reranked_nodes := (base_nodes.zip rerank_scores).map (fun p => ⟨p.1.node, p.2⟩)
      let sorted_nodes := sortByScoreDesc reranked_nodes
      (Except.ok (if top_k = 0 then sorted_nodes else pysliceTake top_k sorted_nodes), true)

/-- The configuration dict of `RetrievalPipeline.__init__` (defaults in the
source: `use_bm25=True, use_vector=True, use_hybrid=True, use_reranking=True,
vector_weight=0.7, bm25_weight=0.3, top_k=5, rerank_top_k=10`). -/
structure PipelineConfig where
  use_bm25 : Bool
  use_vector : Bool
  use_hybrid : Bool
  use_reranking : Bool
  vector_weight : ℚ
  bm25_weight : ℚ
  top_k : Int
  rerank_top_k : Int

/-- The retriever object assembled by `RetrievalPipeline.build`: an external
base retriever (BM25 or vector, modelled at its interface as a function from
query text to scored results), a `WeightedFusionRetriever` over named
external retrievers, or a `RerankedRetriever` wrapping a base retriever. -/
inductive BuiltRetriever where
  | leaf (name : String) (f : String → List NodeWithScore)
  | fusionOf (retrievers : List (String × (String → List NodeWithScore)))
      (weights : List (String × ℚ))
  | rerankedOf (base : BuiltRetriever) (fetch_k top_k : Int)

/-- Whether the assembled retriever contains a fusion combiner stage. -/
def usesFusion : BuiltRetriever → Bool
  | BuiltRetriever.leaf _ _ => false
  | BuiltRetriever.fusionOf _ _ => true
  | BuiltRetriever.rerankedOf b _ _ => usesFusion b

/-- The body of `RetrievalPipeline.build`: insert `"bm25"` then `"vector"`
into the retrievers dict according to the flags; use the fusion retriever
when `use_hybrid and len(retrievers) > 1`, otherwise
`next(iter(retrievers.keys()))` — which raises `StopIteration` when the dict
is empty; finally wrap with a `RerankedRetriever(fetch_k=rerank_top_k,
top_k=top_k)` when `use_reranking`.  The external constructors
`BM25Retriever.from_defaults(nodes, similarity_top_k=top_k)` and
`vector_index.as_retriever(similarity_top_k=top_k)` are modelled as the given
functions `bm25` and `vector`. -/
def buildRetriever (cfg : PipelineConfig)
    (bm25 vector : String → List NodeWithScore) : Except PyErr BuiltRetriever :=
  let retrievers : List (String × (String → List NodeWithScore)) :=
    (if cfg.use_bm25 then [("bm25", bm25)] else []) ++
      (if cfg.use_vector then [("vector", vector)] else [])
  let base : Except PyErr BuiltRetriever :=
    if cfg.use_hybrid ∧ 1 < retrievers.length then
      Except.ok (BuiltRetriever.fusionOf retrievers
        [("vector", cfg.vector_weight), ("bm25", cfg.bm25_weight)])
    else
      match retrievers with
      | [] => Except.error PyErr.stopIteration
      | r :: _ => Except.ok (BuiltRetriever.leaf r.1 r.2)
  match base with
  | Except.error e => Except.error e
  | Except.ok b =>
    Except.ok (if cfg.use_reranking
      then BuiltRetriever.rerankedOf b cfg.rerank_top_k cfg.top_k else b)

/-- Run an assembled retriever on a query.  `predict` is the external
cross-encoder used by any reranking stage; errors from it propagate, since
the source has no handler around `self.reranker.predict`. -/
def retrieveBuilt (predict : List (String × String) → Except PyErr (List ℚ)) :
    BuiltRetriever → String → Except PyErr (List NodeWithScore)
  | BuiltRetriever.leaf _ f, q => Except.ok (f q)
  | BuiltRetriever.fusionOf rs ws, q =>
    Except.ok (weightedFusionRetrieve (rs.map (fun p => (p.1, p.2 q))) ws)
  | BuiltRetriever.rerankedOf b fk tk, q =>
    match retrieveBuilt predict b q with
    | Except.error e => Except.error e
    | Except.ok baseRes => (rerankedRetrieve baseRes predict fk tk q).1

/-- The `RetrievalPipeline` object: its configuration and the
`self.pipeline` attribute, which is `None` until `build` is called. -/
structure RetrievalPipeline where
  config : PipelineConfig
  pipeline : Option BuiltRetriever

/-- `RetrievalPipeline.__init__`: stores the configuration and sets
`self.pipeline = None`. -/
def RetrievalPipeline.start (cfg : PipelineConfig) : RetrievalPipeline :=
  ⟨cfg, none⟩

/-- `RetrievalPipeline.build(nodes)`: assembles `self.pipeline` (propagating
the `StopIteration` raised when no retriever is enabled). -/
def RetrievalPipeline.build (p : RetrievalPipeline)
    (bm25 vector : String → List NodeWithScore) : Except PyErr RetrievalPipeline :=
  match buildRetriever p.config bm25 vector with
  | Except.error e => Except.error e
  | Except.ok b => Except.ok ⟨p.config, some b⟩

/-- `RetrievalPipeline.retrieve(query)`: raises `ValueError` when
`self.pipeline is None`, otherwise runs the assembled retriever.  The
Boolean in the result records whether the returned ranking was served from a
cache; the source method contains no cache lookup at all, so it is always
`false` (the timing side effects of the source are not modelled). -/
def RetrievalPipeline.retrieve
    (predict : List (String × String) → Except PyErr (List ℚ))
    (p : RetrievalPipeline) (q : String) :
    Except PyErr (List NodeWithScore) × Bool :=
  match p.pipeline with
  | none => (Except.error PyErr.valueError, false)
  | some r => (retrieveBuilt predict r q, false)

/-- The chapter-5 `LRUCache` object: `capacity`, the dict `self.cache`
(insertion-ordered association list) and the list `self.usage_order`. -/
structure LRUCache (K V : Type) where
  capacity : Nat
  cache : List (K × V)
  usage_order : List K

/-- `LRUCache.get`: on a hit, move the key to the end of `usage_order`
(most recently used) and return the value; `None` on a miss. -/
def LRUCache.get {K V : Type} [DecidableEq K] (c : LRUCache K V) (k : K) :
    LRUCache K V × Option V :=
  match lookupA c.cache k with
  | some v => (⟨c.capacity, c.cache, removeFirst k c.usage_order ++ [k]⟩, some v)
  | none => (c, none)

/-- `LRUCache.put`: replace-and-promote for an existing key; for a new key,
when `len(self.cache) >= self.capacity` first evict
`self.usage_order.pop(0)` (an `IndexError` when that list is empty, which is
unreachable from well-formed states of positive capacity), then append the
new entry. -/
def LRUCache.put {K V : Type} [DecidableEq K] (c : LRUCache K V) (k : K) (v : V) :
    Except PyErr (LRUCache K V) :=
  if (lookupA c.cache k).isSome then
    Except.ok ⟨c.capacity, setA c.cache k v, removeFirst k c.usage_order ++ [k]⟩
  else
    if c.capacity ≤ c.cache.length then
      match c.usage_order with
      | [] => Except.error PyErr.indexError
      | lru_key :: rest =>
        Except.ok ⟨c.capacity, delKey lru_key c.cache ++ [(k, v)], rest ++ [k]⟩
    else
      Except.ok ⟨c.capacity, c.cache ++ [(k, v)], c.usage_order ++ [k]⟩

/-- `LRUCache.clear`. -/
def LRUCache.clear {K V : Type} (c : LRUCache K V) : LRUCache K V :=
  ⟨c.capacity, [], []⟩

/-- `LRUCache.__len__`. -/
def LRUCache.size {K V : Type} (c : LRUCache K V) : Nat :=
  c.cache.length

/-- A freshly constructed `LRUCache(capacity)`. -/
def emptyLRU (K V : Type) (capacity : Nat) : LRUCache K V :=
  ⟨capacity, [], []⟩

/-- One operation of the cache interface. -/
inductive CacheOp (K V : Type) where
  | get (k : K)
  | put (k : K) (v : V)
  | clear

/-- Execute one cache operation (the value returned by `get` is dropped; only
the state matters for the invariant). -/
def cacheStep {K V : Type} [DecidableEq K] (c : LRUCache K V) :
    CacheOp K V → Except PyErr (LRUCache K V)
  | CacheOp.get k => Except.ok (c.get k).1
  | CacheOp.put k v => c.put k v
  | CacheOp.clear => Except.ok c.clear

/-- Execute a sequence of cache operations. -/
def runOps {K V : Type} [DecidableEq K] (c : LRUCache K V) :
    List (CacheOp K V) → Except PyErr (LRUCache K V)
  | [] => Except.ok c
  | op :: t =>
    match cacheStep c op with
    | Except.error e => Except.error e
    | Except.ok c' => runOps c' t

/-- Execute a sequence of puts. -/
def runPuts {K V : Type} [DecidableEq K] (c : LRUCache K V) :
    List (K × V) → Except PyErr (LRUCache K V)
  | [] => Except.ok c
  | (k, v) :: t =>
    match c.put k v with
    | Except.error e => Except.error e
    | Except.ok c' => runPuts c' t

/-- Well-formedness of a cache state: `usage_order` holds each key of the
dict exactly once and nothing else, and the size is within capacity. -/
def LRUCache.WellFormed {K V : Type} (c : LRUCache K V) : Prop :=
  c.usage_order.Nodup ∧ c.usage_order.Perm (c.cache.map Prod.fst) ∧
    c.cache.length ≤ c.capacity

/-- Little-endian decimal digits of a natural number (empty for zero). -/
def digitsRev : Nat → List Nat
  | 0 => []
  | n + 1 => ((n + 1) % 10) :: digitsRev ((n + 1) / 10)
decreasing_by exact Nat.div_lt_self (Nat.succ_pos n) (by decide)

/-- Value of a little-endian digit list (used to invert `digitsRev`). -/
def digitsVal : List Nat → Nat
  | [] => 0
  | d :: t => d + 10 * digitsVal t

/-- Decimal rendering of a natural number, as Python's `str()` renders an
`int`: most significant digit first, `"0"` for zero. -/
def pyIntRepr (n : Nat) : List Char :=
  if n = 0 then ['0'] else (digitsRev n).reverse.map Nat.digitChar

/-- The cache-key construction of `cached_query`:
`cache_key = f"{query_text}:{n_results}"`.  Strings are modelled as character
lists; the key depends on nothing but `query_text` and `n_results` (the
function in the source has no further parameters). -/
def cachedQueryKey (query_text : List Char) (n_results : Nat) : List Char :=
  query_text ++ ':' :: pyIntRepr n_results

theorem perm_insertByScore (x : NodeWithScore) (l : List NodeWithScore) :
    (insertByScore x l).Perm (x :: l) := by
  induction l with
  | nil => simp [insertByScore]
  | cons y ys ih =>
    by_cases h : x.score < y.score
    · simp only [insertByScore, if_pos h]
      exact (ih.cons y).trans (List.Perm.swap x y ys)
    · simp [insertByScore, if_neg h]

theorem perm_sortByScoreDesc (l : List NodeWithScore) : (sortByScoreDesc l).Perm l := by
  induction l with
  | nil => simp [sortByScoreDesc]
  | cons x xs ih => exact (perm_insertByScore x (sortByScoreDesc xs)).trans (ih.cons x)

theorem pairwise_insertByScore (x : NodeWithScore) (l : List NodeWithScore)
    (h : l.Pairwise (fun a b => b.score ≤ a.score)) :
    (insertByScore x l).Pairwise (fun a b => b.score ≤ a.score) := by
  induction l with
  | nil => simp [insertByScore]
  | cons y ys ih =>
    rcases List.pairwise_cons.mp h with ⟨hy, hys⟩
    by_cases hxy : x.score < y.score
    · simp only [insertByScore, if_pos hxy]
      refine List.pairwise_cons.mpr ⟨?_, ih hys⟩
      intro z hz
      rcases List.mem_cons.mp ((perm_insertByScore x ys).mem_iff.mp hz) with rfl | hz'
      · exact le_of_lt hxy
      · exact hy z hz'
    · simp only [insertByScore, if_neg hxy]
      refine List.pairwise_cons.mpr ⟨?_, h⟩
      intro z hz
      rcases List.mem_cons.mp hz with rfl | hz'
      · exact le_of_not_lt hxy
      · exact (hy z hz').trans (le_of_not_lt hxy)

theorem sorted_sortByScoreDesc (l : List NodeWithScore) :
    (sortByScoreDesc l).Pairwise (fun a b => b.score ≤ a.score) := by
  induction l with
  | nil => simp [sortByScoreDesc]
  | cons x xs ih => exact pairwise_insertByScore x (sortByScoreDesc xs) ih

theorem pysliceTake_eq_take {α : Type} (k : Int) (xs : List α) :
    ∃ m, pysliceTake k xs = xs.take m := by
  unfold pysliceTake; split
  · exact ⟨k.toNat, rfl⟩
  · exact ⟨xs.length - (-k).toNat, rfl⟩

theorem pysliceTake_zero {α : Type} (xs : List α) : pysliceTake 0 xs = [] := by
  simp [pysliceTake]

theorem pysliceTake_nil {α : Type} (k : Int) : pysliceTake k ([] : List α) = [] := by
  unfold pysliceTake; split <;> simp

theorem pysliceTake_nonneg {α : Type} (k : Int) (hk : 0 ≤ k) (xs : List α) :
    pysliceTake k xs = xs.take k.toNat := by
  simp [pysliceTake, hk]

theorem mem_pysliceTake {α : Type} {x : α} {k : Int} {xs : List α}
    (h : x ∈ pysliceTake k xs) : x ∈ xs := by
  obtain ⟨m, hm⟩ := pysliceTake_eq_take k xs
  rw [hm] at h
  exact List.take_subset m xs h

theorem length_pysliceTake_le {α : Type} (k : Int) (hk : 0 ≤ k) (xs : List α) :
    (pysliceTake k xs).length ≤ k.toNat := by
  rw [pysliceTake_nonneg k hk]
  exact (List.length_take_le k.toNat xs)

theorem fuseInsert_map_fst (a : List (String × TextNode × List (String × ℚ)))
    (name : String) (node : TextNode) (ws : ℚ) :
    (fuseInsert a name node ws).map Prod.fst =
      if node.node_id ∈ a.map Prod.fst then a.map Prod.fst
      else a.map Prod.fst ++ [node.node_id] := by
  induction a with
  | nil => simp [fuseInsert]
  | cons e t ih =>
    obtain ⟨id0, n0, sc0⟩ := e
    by_cases h : id0 = node.node_id
    · subst h; simp [fuseInsert]
    · simp only [fuseInsert, if_neg h, List.map_cons, ih]
      by_cases hm : node.node_id ∈ t.map Prod.fst
      · simp [hm, List.mem_cons]
      · have hne : ¬node.node_id = id0 := fun hh => h hh.symm
        simp [hm, List.mem_cons, hne]

theorem mem_fuseInsert_keys (a : List (String × TextNode × List (String × ℚ)))
    (name : String) (node : TextNode) (ws : ℚ) (k : String) :
    k ∈ (fuseInsert a name node ws).map Prod.fst ↔
      k ∈ a.map Prod.fst ∨ k = node.node_id := by
  rw [fuseInsert_map_fst]
  split
  · next hin =>
    constructor
    · exact Or.inl
    · rintro (h | rfl)
      · exact h
      · exact hin
  · simp

theorem fuseInsert_nodup_keys (a : List (String × TextNode × List (String × ℚ)))
    (name : String) (node : TextNode) (ws : ℚ)
    (h : (a.map Prod.fst).Nodup) :
    ((fuseInsert a name node ws).map Prod.fst).Nodup := by
  rw [fuseInsert_map_fst]
  split
  · exact h
  · next hnot => simp [List.nodup_append, h, hnot]

theorem fuseInsert_entry_id (a : List (String × TextNode × List (String × ℚ)))
    (name : String) (node : TextNode) (ws : ℚ)
    (h : ∀ e ∈ a, (e : String × TextNode × List (String × ℚ)).1 = e.2.1.node_id) :
    ∀ e ∈ fuseInsert a name node ws, e.1 = e.2.1.node_id := by
  induction a with
  | nil =>
    intro e he
    simp only [fuseInsert, List.mem_singleton] at he
    subst he; rfl
  | cons e0 t ih =>
    obtain ⟨id0, n0, sc0⟩ := e0
    intro e he
    by_cases hid : id0 = node.node_id
    · subst hid
      have hrw : fuseInsert ((node.node_id, n0, sc0) :: t) name node ws =
          (node.node_id, n0, setA sc0 name ws) :: t := by
        simp [fuseInsert]
      rw [hrw] at he
      rcases List.mem_cons.mp he with he' | he'
      · rw [he']
        exact h (node.node_id, n0, sc0) (List.mem_cons_self _ _)
      · exact h e (List.mem_cons_of_mem _ he')
    · have hrw : fuseInsert ((id0, n0, sc0) :: t) name node ws =
          (id0, n0, sc0) :: fuseInsert t name node ws := by
        simp [fuseInsert, hid]
      rw [hrw] at he
      rcases List.mem_cons.mp he with he' | he'
      · rw [he']
        exact h (id0, n0, sc0) (List.mem_cons_self _ _)
      · exact ih (fun e' he'' => h e' (List.mem_cons_of_mem _ he'')) e he'

theorem fuseSource_cons (weights : List (String × ℚ))
    (a : List (String × TextNode × List (String × ℚ))) (name : String)
    (r : NodeWithScore) (rs : List NodeWithScore) :
    fuseSource weights a name (r :: rs) =
      fuseSource weights
        (fuseInsert a name r.node (r.score * ((lookupA weights name).getD 1)))
        name rs := rfl

theorem mem_fuseSource_keys (weights : List (String × ℚ)) (results : List NodeWithScore) :
    ∀ (a : List (String × TextNode × List (String × ℚ))) (name : String) (k : String),
      k ∈ (fuseSource weights a name results).map Prod.fst ↔
        k ∈ a.map Prod.fst ∨ ∃ x ∈ results, x.node.node_id = k := by
  induction results with
  | nil => simp [fuseSource]
  | cons r rs ih =>
    intro a name k
    rw [fuseSource_cons, ih, mem_fuseInsert_keys]
    simp only [List.mem_cons]
    constructor
    · rintro ((h | h) | h)
      · exact Or.inl h
      · exact Or.inr ⟨r, Or.inl rfl, h.symm⟩
      · rcases h with ⟨x, hx, hid⟩
        exact Or.inr ⟨x, Or.inr hx, hid⟩
    · rintro (h | ⟨x, hx | hx, hid⟩)
      · exact Or.inl (Or.inl h)
      · subst hx
        exact Or.inl (Or.inr hid.symm)
      · exact Or.inr ⟨x, hx, hid⟩

theorem fuseSource_nodup_keys (weights : List (String × ℚ)) (results : List NodeWithScore) :
    ∀ (a : List (String × TextNode × List (String × ℚ))) (name : String),
      (a.map Prod.fst).Nodup → ((fuseSource weights a name results).map Prod.fst).Nodup := by
  induction results with
  | nil => intro a name h; exact h
  | cons r rs ih =>
    intro a name h
    rw [fuseSource_cons]
    exact ih _ name (fuseInsert_nodup_keys a name r.node _ h)

theorem fuseSource_entry_id (weights : List (String × ℚ)) (results : List NodeWithScore) :
    ∀ (a : List (String × TextNode × List (String × ℚ))) (name : String),
      (∀ e ∈ a, (e : String × TextNode × List (String × ℚ)).1 = e.2.1.node_id) →
      ∀ e ∈ fuseSource weights a name results, e.1 = e.2.1.node_id := by
  induction results with
  | nil => intro a name h; exact h
  | cons r rs ih =>
    intro a name h
    rw [fuseSource_cons]
    exact ih _ name (fuseInsert_entry_id a name r.node _ h)

theorem fuseAll_foldl (weights : List (String × ℚ)) (named : List (String × List NodeWithScore)) :
    ∀ (a : List (String × TextNode × List (String × ℚ))),
      (named.foldl (fun acc p => fuseSource weights acc p.1 p.2) a) =
        (match named with
         | [] => a
         | p :: t => t.foldl (fun acc p' => fuseSource weights acc p'.1 p'.2)
             (fuseSource weights a p.1 p.2)) := by
  intro a
  cases named <;> simp

theorem mem_fuseAll_core_keys (weights : List (String × ℚ))
    (named : List (String × List NodeWithScore)) :
    ∀ (a : List (String × TextNode × List (String × ℚ))) (k : String),
      k ∈ ((named.foldl (fun acc p => fuseSource weights acc p.1 p.2) a).map Prod.fst) ↔
        k ∈ a.map Prod.fst ∨ ∃ p ∈ named, ∃ x ∈ p.2, x.node.node_id = k := by
  induction named with
  | nil => simp
  | cons p t ih =>
    intro a k
    simp only [List.foldl_cons]
    rw [ih, mem_fuseSource_keys]
    simp only [List.mem_cons]
    constructor
    · rintro ((h | h) | h)
      · exact Or.inl h
      · exact Or.inr ⟨p, Or.inl rfl, h⟩
      · rcases h with ⟨p', hp', hx⟩
        exact Or.inr ⟨p', Or.inr hp', hx⟩
    · rintro (h | ⟨p', hp | hp, hx⟩)
      · exact Or.inl (Or.inl h)
      · subst hp
        exact Or.inl (Or.inr hx)
      · exact Or.inr ⟨p', hp, hx⟩

theorem fuseAll_core_nodup_keys (weights : List (String × ℚ))
    (named : List (String × List NodeWithScore)) :
    ∀ (a : List (String × TextNode × List (String × ℚ))),
      (a.map Prod.fst).Nodup →
      (((named.foldl (fun acc p => fuseSource weights acc p.1 p.2) a)).map Prod.fst).Nodup := by
  induction named with
  | nil => intro a h; exact h
  | cons p t ih =>
    intro a h
    simp only [List.foldl_cons]
    exact ih _ (fuseSource_nodup_keys weights p.2 a p.1 h)

theorem fuseAll_core_entry_id (weights : List (String × ℚ))
    (named : List (String × List NodeWithScore)) :
    ∀ (a : List (String × TextNode × List (String × ℚ))),
      (∀ e ∈ a, (e : String × TextNode × List (String × ℚ)).1 = e.2.1.node_id) →
      ∀ e ∈ named.foldl (fun acc p => fuseSource weights acc p.1 p.2) a,
        e.1 = e.2.1.node_id := by
  induction named with
  | nil => intro a h; exact h
  | cons p t ih =>
    intro a h
    simp only [List.foldl_cons]
    exact ih _ (fuseSource_entry_id weights p.2 a p.1 h)

theorem mem_fuseAll_keys (named : List (String × List NodeWithScore))
    (weights : List (String × ℚ)) (k : String) :
    k ∈ (fuseAll named weights).map Prod.fst ↔
      ∃ p ∈ named, ∃ x ∈ p.2, x.node.node_id = k := by
  unfold fuseAll
  rw [mem_fuseAll_core_keys]
  simp

theorem fuseAll_nodup_keys (named : List (String × List NodeWithScore))
    (weights : List (String × ℚ)) : ((fuseAll named weights).map Prod.fst).Nodup := by
  unfold fuseAll
  exact fuseAll_core_nodup_keys weights named [] (by simp)

theorem fuseAll_entry_id (named : List (String × List NodeWithScore))
    (weights : List (String × ℚ)) :
    ∀ e ∈ fuseAll named weights, (e : String × TextNode × List (String × ℚ)).1 = e.2.1.node_id := by
  unfold fuseAll
  exact fuseAll_core_entry_id weights named [] (by simp)

theorem weightedFusionRetrieve_ids_perm (named : List (String × List NodeWithScore))
    (weights : List (String × ℚ)) :
    ((weightedFusionRetrieve named weights).map (fun r => r.node.node_id)).Perm
      ((fuseAll named weights).map Prod.fst) := by
  unfold weightedFusionRetrieve
  refine ((perm_sortByScoreDesc _).map (fun r => r.node.node_id)).trans ?_
  rw [List.map_map]
  have : ((fuseAll named weights).map
      ((fun (r : NodeWithScore) => r.node.node_id) ∘
        (fun e => (⟨e.2.1, (e.2.2.map Prod.snd).foldl (fun s x => s + x) 0⟩ : NodeWithScore)))) =
      (fuseAll named weights).map Prod.fst := by
    apply List.map_congr_left
    intro e he
    exact (fuseAll_entry_id named weights e he).symm
  rw [this]

theorem lookupA_isSome_iff {K α : Type} [DecidableEq K] (l : List (K × α)) (k : K) :
    (lookupA l k).isSome = true ↔ k ∈ l.map Prod.fst := by
  induction l with
  | nil => simp [lookupA]
  | cons e t ih =>
    obtain ⟨k', v⟩ := e
    by_cases h : k' = k
    · subst h; simp [lookupA]
    · have h' : ¬k = k' := fun hh => h hh.symm
      simp [lookupA, h, ih, h']

theorem lookupA_eq_none {K α : Type} [DecidableEq K] {l : List (K × α)} {k : K}
    (h : k ∉ l.map Prod.fst) : lookupA l k = none := by
  rcases ho : lookupA l k with _ | v
  · rfl
  · exact absurd ((lookupA_isSome_iff l k).mp (by simp [ho])) h

theorem setA_map_fst {K α : Type} [DecidableEq K] (l : List (K × α)) (k : K) (v : α) :
    (setA l k v).map Prod.fst =
      if k ∈ l.map Prod.fst then l.map Prod.fst else l.map Prod.fst ++ [k] := by
  induction l with
  | nil => simp [setA]
  | cons e t ih =>
    obtain ⟨k', v'⟩ := e
    by_cases h : k' = k
    · subst h; simp [setA]
    · have h' : ¬k = k' := fun hh => h hh.symm
      simp only [setA, if_neg h, List.map_cons, ih]
      by_cases hm : k ∈ t.map Prod.fst
      · simp [hm, List.mem_cons, h']
      · simp [hm, List.mem_cons, h']

theorem removeFirst_eq_erase {K : Type} [DecidableEq K] (k : K) (l : List K) :
    removeFirst k l = l.erase k := by
  induction l with
  | nil => rfl
  | cons a t ih =>
    by_cases h : a = k
    · subst h; simp [removeFirst]
    · rw [List.erase_cons_tail (by simpa using h)]
      simp [removeFirst, h, ih]

theorem delKey_map_fst {K α : Type} [DecidableEq K] (k : K) (l : List (K × α)) :
    (delKey k l).map Prod.fst = (l.map Prod.fst).erase k := by
  induction l with
  | nil => rfl
  | cons e t ih =>
    obtain ⟨k', v⟩ := e
    by_cases h : k' = k
    · subst h; simp [delKey]
    · rw [List.map_cons, List.erase_cons_tail (by simpa using h)]
      simp [delKey, h, ih]

theorem promote_perm {K : Type} [DecidableEq K] {k : K} {l : List K} (h : k ∈ l) :
    (removeFirst k l ++ [k]).Perm l := by
  rw [removeFirst_eq_erase]
  exact (List.perm_append_singleton k (l.erase k)).trans (List.perm_cons_erase h).symm

theorem promote_nodup {K : Type} [DecidableEq K] {k : K} {l : List K} (h : l.Nodup) :
    (removeFirst k l ++ [k]).Nodup := by
  rw [removeFirst_eq_erase, List.nodup_append]
  refine ⟨h.erase k, List.nodup_singleton k, ?_⟩
  intro a ha hk'
  rcases List.mem_singleton.mp hk' with rfl
  exact h.not_mem_erase ha

theorem wf_get {K V : Type} [DecidableEq K] (c : LRUCache K V) (k : K)
    (h : c.WellFormed) : ((c.get k).1).WellFormed := by
  obtain ⟨hnd, hperm, hlen⟩ := h
  unfold LRUCache.get
  rcases hl : lookupA c.cache k with _ | v
  · exact ⟨hnd, hperm, hlen⟩
  · have hk : k ∈ c.cache.map Prod.fst := (lookupA_isSome_iff _ _).mp (by simp [hl])
    have hku : k ∈ c.usage_order := hperm.mem_iff.mpr hk
    exact ⟨promote_nodup hnd, (promote_perm hku).trans hperm, hlen⟩

theorem wf_put {K V : Type} [DecidableEq K] (c : LRUCache K V) (k : K) (v : V)
    (hcap : 0 < c.capacity) (h : c.WellFormed) :
    ∃ c', c.put k v = Except.ok c' ∧ c'.WellFormed ∧ c'.capacity = c.capacity := by
  obtain ⟨hnd, hperm, hlen⟩ := h
  unfold LRUCache.put
  by_cases hs : (lookupA c.cache k).isSome = true
  · rw [if_pos hs]
    have hk : k ∈ c.cache.map Prod.fst := (lookupA_isSome_iff _ _).mp hs
    have hku : k ∈ c.usage_order := hperm.mem_iff.mpr hk
    refine ⟨_, rfl, ⟨promote_nodup hnd, ?_, ?_⟩, rfl⟩
    · refine ((promote_perm hku).trans hperm).trans ?_
      rw [setA_map_fst, if_pos hk]
    · have : (setA c.cache k v).length = c.cache.length := by
        have h1 := congrArg List.length (setA_map_fst c.cache k v)
        rw [if_pos hk] at h1
        simpa using h1
      simpa [this] using hlen
  · rw [if_neg hs]
    have hk : k ∉ c.cache.map Prod.fst := fun hm => hs ((lookupA_isSome_iff _ _).mpr hm)
    have hku : k ∉ c.usage_order := fun hm => hk (hperm.mem_iff.mp hm)
    by_cases hfull : c.capacity ≤ c.cache.length
    · rw [if_pos hfull]
      have hul : c.usage_order.length = c.cache.length := by
        rw [hperm.length_eq, List.length_map]
      rcases hu : c.usage_order with _ | ⟨lru, rest⟩
      · exfalso
        rw [hu] at hul
        simp at hul
        omega
      · refine ⟨_, rfl, ⟨?_, ?_, ?_⟩, rfl⟩
        · have hnd' : (lru :: rest).Nodup := hu ▸ hnd
          have hkr : k ∉ rest := fun hm => hku (hu ▸ List.mem_cons_of_mem _ hm)
          rw [List.nodup_append]
          refine ⟨hnd'.of_cons, List.nodup_singleton k, ?_⟩
          intro a ha hk'
          rcases List.mem_singleton.mp hk' with rfl
          exact hkr ha
        · have hperm' : (lru :: rest).Perm (c.cache.map Prod.fst) := hu ▸ hperm
          have hrest : rest.Perm ((c.cache.map Prod.fst).erase lru) := by
            have := hperm'.erase lru
            rwa [List.erase_cons_head] at this
          rw [List.map_append, delKey_map_fst]
          exact hrest.append (List.Perm.refl [(k, v).1])
        · have hlru : lru ∈ c.cache.map Prod.fst :=
            hperm.mem_iff.mp (hu ▸ List.mem_cons_self lru rest)
          have hdl : (delKey lru c.cache).length = c.cache.length - 1 := by
            have h1 := congrArg List.length (delKey_map_fst lru c.cache)
            rw [List.length_erase_of_mem hlru] at h1
            simpa using h1
          have hpos : 0 < c.cache.length := by
            rcases hc : c.cache with _ | _
            · rw [hc] at hlru; simp at hlru
            · simp [hc]
          simp only [List.length_append, hdl, List.length_cons, List.length_nil]
          omega
    · rw [if_neg hfull]
      refine ⟨_, rfl, ⟨?_, ?_, ?_⟩, rfl⟩
      · rw [List.nodup_append]
        refine ⟨hnd, List.nodup_singleton k, ?_⟩
        intro a ha hk'
        rcases List.mem_singleton.mp hk' with rfl
        exact hku ha
      · rw [List.map_append]
        exact hperm.append (List.Perm.refl [(k, v).1])
      · simp only [List.length_append, List.length_cons, List.length_nil]
        omega

theorem wf_clear {K V : Type} (c : LRUCache K V) : (c.clear).WellFormed :=
  ⟨List.nodup_nil, List.Perm.refl _, Nat.zero_le _⟩

theorem get_capacity {K V : Type} [DecidableEq K] (c : LRUCache K V) (k : K) :
    ((c.get k).1).capacity = c.capacity := by
  unfold LRUCache.get
  cases lookupA c.cache k <;> rfl

theorem wf_step {K V : Type} [DecidableEq K] (c : LRUCache K V) (op : CacheOp K V)
    (hcap : 0 < c.capacity) (h : c.WellFormed) :
    ∃ c', cacheStep c op = Except.ok c' ∧ c'.WellFormed ∧ c'.capacity = c.capacity := by
  cases op with
  | get k => exact ⟨_, rfl, wf_get c k h, get_capacity c k⟩
  | put k v => exact wf_put c k v hcap h
  | clear => exact ⟨_, rfl, wf_clear c, rfl⟩

theorem wf_runOps {K V : Type} [DecidableEq K] (ops : List (CacheOp K V)) :
    ∀ c : LRUCache K V, 0 < c.capacity → c.WellFormed →
      ∃ c', runOps c ops = Except.ok c' ∧ c'.WellFormed ∧ c'.capacity = c.capacity := by
  induction ops with
  | nil => intro c _ h; exact ⟨c, rfl, h, rfl⟩
  | cons op t ih =>
    intro c hcap h
    obtain ⟨c1, hstep, hwf1, hc1⟩ := wf_step c op hcap h
    obtain ⟨c', hrun, hwf', hc'⟩ := ih c1 (hc1 ▸ hcap) hwf1
    exact ⟨c', by simp [runOps, hstep, hrun], hwf', hc'.trans hc1⟩

theorem runPuts_fresh {K V : Type} [DecidableEq K] (pairs : List (K × V)) :
    ∀ c : LRUCache K V, (pairs.map Prod.fst).Nodup →
      (∀ k ∈ pairs.map Prod.fst, k ∉ c.cache.map Prod.fst) →
      c.cache.length + pairs.length ≤ c.capacity →
      c.usage_order = c.cache.map Prod.fst →
      runPuts c pairs =
        Except.ok ⟨c.capacity, c.cache ++ pairs, (c.cache ++ pairs).map Prod.fst⟩ := by
  induction pairs with
  | nil =>
    intro c _ _ _ hu
    obtain ⟨cap, cache, usage⟩ := c
    simp only at hu
    simp [runPuts, hu]
  | cons p t ih =>
    intro c hnd hfresh hlen hu
    obtain ⟨k, v⟩ := p
    have hk : k ∉ c.cache.map Prod.fst := hfresh k (by simp)
    have hnone : lookupA c.cache k = none := lookupA_eq_none hk
    have hlt : ¬ c.capacity ≤ c.cache.length := by
      simp only [List.length_cons] at hlen
      omega
    have hput : c.put k v =
        Except.ok ⟨c.capacity, c.cache ++ [(k, v)], c.usage_order ++ [k]⟩ := by
      unfold LRUCache.put
      rw [hnone]
      simp only [Option.isSome_none, Bool.false_eq_true, if_false, if_neg hlt]
    have hstep : runPuts c ((k, v) :: t) =
        runPuts (⟨c.capacity, c.cache ++ [(k, v)], c.usage_order ++ [k]⟩ : LRUCache K V) t := by
      conv_lhs => rw [runPuts]
      rw [hput]
    rw [hstep]
    have hmap : (c.cache ++ [(k, v)]).map Prod.fst = c.cache.map Prod.fst ++ [k] := by
      simp
    have hrec := ih (⟨c.capacity, c.cache ++ [(k, v)], c.usage_order ++ [k]⟩ : LRUCache K V)
      (by simp only [List.map_cons] at hnd; exact hnd.of_cons)
      (by
        intro k' hk'
        have hne : k' ≠ k := by
          simp only [List.map_cons] at hnd
          rcases List.pairwise_cons.mp hnd with ⟨hh, _⟩
          exact fun he => absurd he.symm (hh k' hk')
        have : k' ∉ c.cache.map Prod.fst := hfresh k' (by simp [hk'])
        simp only [hmap, List.mem_append, List.mem_singleton]
        rintro (h | h)
        · exact this h
        · exact hne h)
      (by
        simp only [List.length_append, List.length_cons, List.length_nil] at hlen ⊢
        omega)
      (by simp [hmap, hu])
    rw [hrec]
    simp

theorem digitsRev_lt_ten (n : Nat) : ∀ d ∈ digitsRev n, d < 10 := by
  induction n using Nat.strong_induction_on with
  | _ n ih =>
    cases n with
    | zero => simp [digitsRev]
    | succ m =>
      intro d hd
      rw [digitsRev] at hd
      rcases List.mem_cons.mp hd with rfl | hd'
      · exact Nat.mod_lt _ (by omega)
      · exact ih ((m + 1) / 10) (Nat.div_lt_self (Nat.succ_pos m) (by omega)) d hd'

theorem digitsVal_digitsRev (n : Nat) : digitsVal (digitsRev n) = n := by
  induction n using Nat.strong_induction_on with
  | _ n ih =>
    cases n with
    | zero => simp [digitsRev, digitsVal]
    | succ m =>
      rw [digitsRev, digitsVal,
        ih ((m + 1) / 10) (Nat.div_lt_self (Nat.succ_pos m) (by omega))]
      omega

theorem digitsRev_injective {a b : Nat} (h : digitsRev a = digitsRev b) : a = b := by
  have := congrArg digitsVal h
  rwa [digitsVal_digitsRev, digitsVal_digitsRev] at this

theorem digitsRev_eq_nil_iff (n : Nat) : digitsRev n = [] ↔ n = 0 := by
  cases n with
  | zero => simp [digitsRev]
  | succ m => simp [digitsRev]

theorem digitChar_inj_lt (a b : Nat) (ha : a < 10) (hb : b < 10)
    (h : Nat.digitChar a = Nat.digitChar b) : a = b := by
  interval_cases a <;> interval_cases b <;> simp_all [Nat.digitChar]

theorem digitChar_ne_colon (d : Nat) (hd : d < 10) : Nat.digitChar d ≠ ':' := by
  interval_cases d <;> simp [Nat.digitChar]

theorem map_digitChar_inj (l1 l2 : List Nat) (h1 : ∀ d ∈ l1, d < 10)
    (h2 : ∀ d ∈ l2, d < 10) (h : l1.map Nat.digitChar = l2.map Nat.digitChar) :
    l1 = l2 := by
  induction l1 generalizing l2 with
  | nil => cases l2 <;> simp_all
  | cons a t ih =>
    cases l2 with
    | nil => simp_all
    | cons b s =>
      simp only [List.map_cons, List.cons.injEq] at h
      have ha : a = b := digitChar_inj_lt a b (h1 a (by simp)) (h2 b (by simp)) h.1
      have ht : t = s := ih s (fun d hd => h1 d (by simp [hd]))
        (fun d hd => h2 d (by simp [hd])) h.2
      rw [ha, ht]

theorem pyIntRepr_ne_colon (n : Nat) : ∀ c ∈ pyIntRepr n, c ≠ ':' := by
  unfold pyIntRepr
  split
  · intro c hc
    rcases List.mem_singleton.mp hc with rfl
    decide
  · intro c hc
    rcases List.mem_map.mp hc with ⟨d, hd, rfl⟩
    exact digitChar_ne_colon d (digitsRev_lt_ten n d (List.mem_reverse.mp hd))

theorem pyIntRepr_injective {a b : Nat} (h : pyIntRepr a = pyIntRepr b) : a = b := by
  unfold pyIntRepr at h
  by_cases ha : a = 0 <;> by_cases hb : b = 0
  · rw [ha, hb]
  · exfalso
    rw [if_pos ha, if_neg hb] at h
    have hb' : digitsRev b ≠ [] := fun he => hb ((digitsRev_eq_nil_iff b).mp he)
    rcases hrb : (digitsRev b).reverse with _ | ⟨d, ds⟩
    · exact hb' (by simpa using hrb)
    · rw [hrb] at h
      simp only [List.map_cons, List.cons.injEq] at h
      have hd10 : d < 10 := digitsRev_lt_ten b d (List.mem_reverse.mp (by rw [hrb]; simp))
      have : d = 0 := by
        have h0 : Nat.digitChar d = '0' := h.1.symm
        interval_cases d <;> simp_all [Nat.digitChar]
      have hds : ds = [] := by
        rcases ds with _ | _
        · rfl
        · simp at h
      rw [this, hds] at hrb
      have : digitsRev b = [0] := by
        have := congrArg List.reverse hrb
        simpa using this
      have hv := congrArg digitsVal this
      rw [digitsVal_digitsRev] at hv
      simp [digitsVal] at hv
      exact hb hv
  · exfalso
    rw [if_neg ha, if_pos hb] at h
    have ha' : digitsRev a ≠ [] := fun he => ha ((digitsRev_eq_nil_iff a).mp he)
    rcases hra : (digitsRev a).reverse with _ | ⟨d, ds⟩
    · exact ha' (by simpa using hra)
    · rw [hra] at h
      simp only [List.map_cons, List.cons.injEq] at h
      have hd10 : d < 10 := digitsRev_lt_ten a d (List.mem_reverse.mp (by rw [hra]; simp))
      have : d = 0 := by
        have h0 : Nat.digitChar d = '0' := h.1
        interval_cases d <;> simp_all [Nat.digitChar]
      have hds : ds = [] := by
        rcases ds with _ | _
        · rfl
        · simp at h
      rw [this, hds] at hra
      have : digitsRev a = [0] := by
        have := congrArg List.reverse hra
        simpa using this
      have hv := congrArg digitsVal this
      rw [digitsVal_digitsRev] at hv
      simp [digitsVal] at hv
      exact ha hv
  · rw [if_neg ha, if_neg hb] at h
    have := map_digitChar_inj (digitsRev a).reverse (digitsRev b).reverse
      (fun d hd => digitsRev_lt_ten a d (List.mem_reverse.mp hd))
      (fun d hd => digitsRev_lt_ten b d (List.mem_reverse.mp hd)) h
    exact digitsRev_injective (List.reverse_injective this)

theorem firstColonSplit : ∀ (u v a b : List Char), ':' ∉ u → ':' ∉ v →
    u ++ ':' :: a = v ++ ':' :: b → u = v ∧ a = b := by
  intro u
  induction u with
  | nil =>
    intro v a b _ hv h
    cases v with
    | nil => simpa using h
    | cons y ys =>
      simp only [List.nil_append, List.cons_append, List.cons.injEq] at h
      exact absurd (by rw [← h.1]; exact List.mem_cons_self ':' ys) hv
  | cons x xs ih =>
    intro v a b hu hv h
    cases v with
    | nil =>
      simp only [List.cons_append, List.nil_append, List.cons.injEq] at h
      exact absurd (by rw [h.1]; exact List.mem_cons_self ':' xs) hu
    | cons y ys =>
      simp only [List.cons_append, List.cons.injEq] at h
      obtain ⟨hxy, hrest⟩ := h
      have := ih ys a b (fun hc => hu (List.mem_cons_of_mem x hc))
        (fun hc => hv (List.mem_cons_of_mem y hc)) hrest
      exact ⟨by rw [hxy, this.1], this.2⟩

theorem lastColonSplit (q1 q2 d1 d2 : List Char) (h1 : ':' ∉ d1) (h2 : ':' ∉ d2)
    (h : q1 ++ ':' :: d1 = q2 ++ ':' :: d2) : q1 = q2 ∧ d1 = d2 := by
  have hrev : d1.reverse ++ ':' :: q1.reverse = d2.reverse ++ ':' :: q2.reverse := by
    have := congrArg List.reverse h
    simpa [List.reverse_append] using this
  have := firstColonSplit d1.reverse d2.reverse q1.reverse q2.reverse
    (fun hc => h1 (List.mem_reverse.mp hc)) (fun hc => h2 (List.mem_reverse.mp hc)) hrev
  exact ⟨List.reverse_injective this.2, List.reverse_injective this.1⟩

theorem filter_score_insertByScore (x : NodeWithScore) (m : List NodeWithScore) (s : ℚ) :
    (insertByScore x m).filter (fun r => decide (r.score = s)) =
      ((x :: m).filter (fun r => decide (r.score = s))) := by
  induction m with
  | nil => rfl
  | cons y ys ih =>
    by_cases hxy : x.score < y.score
    · simp only [insertByScore, if_pos hxy]
      by_cases hx : x.score = s
      · have hy : ¬y.score = s := by
          intro h
          rw [hx, h] at hxy
          exact lt_irrefl s hxy
        simp [List.filter_cons, hx, hy, ih]
      · by_cases hy : y.score = s
        · simp [List.filter_cons, hx, hy, ih]
        · simp [List.filter_cons, hx, hy, ih]
    · simp [insertByScore, if_neg hxy]

theorem filter_score_sortByScoreDesc (l : List NodeWithScore) (s : ℚ) :
    (sortByScoreDesc l).filter (fun r => decide (r.score = s)) =
      l.filter (fun r => decide (r.score = s)) := by
  induction l with
  | nil => rfl
  | cons x xs ih =>
    show (insertByScore x (sortByScoreDesc xs)).filter _ = _
    rw [filter_score_insertByScore]
    simp only [List.filter_cons, ih]

theorem mem_sorted_zip_base (baseResults : List NodeWithScore) (fetch_k : Int)
    (scores : List ℚ) (r : NodeWithScore)
    (hr : r ∈ sortByScoreDesc (((pysliceTake fetch_k baseResults).zip scores).map
      (fun p => ⟨p.1.node, p.2⟩))) :
    r.node ∈ baseResults.map NodeWithScore.node := by
  have hr2 : r ∈ ((pysliceTake fetch_k baseResults).zip scores).map
      (fun p => (⟨p.1.node, p.2⟩ : NodeWithScore)) :=
    (perm_sortByScoreDesc _).mem_iff.mp hr
  obtain ⟨p, hp, rfl⟩ := List.mem_map.mp hr2
  have hp1 : p.1 ∈ pysliceTake fetch_k baseResults := by
    obtain ⟨a, b⟩ := p
    exact (List.of_mem_zip hp).1
  have hp2 : p.1 ∈ baseResults := mem_pysliceTake hp1
  show p.1.node ∈ baseResults.map NodeWithScore.node
  exact List.mem_map_of_mem NodeWithScore.node hp2

theorem rerank_mem_base (baseResults : List NodeWithScore)
    (predict : List (String × String) → Except PyErr (List ℚ))
    (fetch_k top_k : Int) (q : String) (res : List NodeWithScore) (invoked : Bool)
    (h : rerankedRetrieve baseResults predict fetch_k top_k q = (Except.ok res, invoked)) :
    ∀ r ∈ res, r.node ∈ baseResults.map NodeWithScore.node := by
  simp only [rerankedRetrieve] at h
  by_cases he : (pysliceTake fetch_k baseResults).isEmpty
  · rw [if_pos he] at h
    have h1 : ([] : List NodeWithScore) = res := by
      have h2 := congrArg Prod.fst h
      simpa using h2
    rw [← h1]
    simp
  · rw [if_neg he] at h
    rcases hp : predict ((pysliceTake fetch_k baseResults).map (fun n => (q, n.node.text)))
      with e | scores
    · rw [hp] at h
      have h2 := congrArg Prod.fst h
      simp at h2
    · rw [hp] at h
      have h1 : (if top_k = 0 then
          sortByScoreDesc (((pysliceTake fetch_k baseResults).zip scores).map
            (fun p => ⟨p.1.node, p.2⟩))
        else pysliceTake top_k (sortByScoreDesc
          (((pysliceTake fetch_k baseResults).zip scores).map
            (fun p => ⟨p.1.node, p.2⟩)))) = res := by
        have h2 := congrArg Prod.fst h
        simpa using h2
      intro r hr
      rw [← h1] at hr
      by_cases htk : top_k = 0
      · rw [if_pos htk] at hr
        exact mem_sorted_zip_base baseResults fetch_k scores r hr
      · rw [if_neg htk] at hr
        obtain ⟨m, hm⟩ := pysliceTake_eq_take top_k (sortByScoreDesc
          (((pysliceTake fetch_k baseResults).zip scores).map (fun p => ⟨p.1.node, p.2⟩)))
        rw [hm] at hr
        exact mem_sorted_zip_base baseResults fetch_k scores r (List.take_subset m _ hr)

/-- C1 counterexample: with a single candidate list holding two documents of
equal score, listed with ids in descending order, and `top_k = 1`, the fusion
combiner returns both documents (no truncation to `top_k`) and keeps the tie
in first-insertion order `["b", "a"]` rather than ascending document-id
order, refuting the claim that the result is tie-broken by document_id
ascending and has length at most `top_k`. -/
theorem C1_counterexample :
    weightedFusionRetrieve [("r", [⟨⟨"b", "tb"⟩, 1⟩, ⟨⟨"a", "ta"⟩, 1⟩])] [("r", 1)] =
      [⟨⟨"b", "tb"⟩, 1⟩, ⟨⟨"a", "ta"⟩, 1⟩] ∧
    ¬((weightedFusionRetrieve [("r", [⟨⟨"b", "tb"⟩, 1⟩, ⟨⟨"a", "ta"⟩, 1⟩])]
        [("r", 1)]).length ≤ 1) := by
  have h : weightedFusionRetrieve [("r", [⟨⟨"b", "tb"⟩, 1⟩, ⟨⟨"a", "ta"⟩, 1⟩])] [("r", 1)] =
      [⟨⟨"b", "tb"⟩, 1⟩, ⟨⟨"a", "ta"⟩, 1⟩] := by
    norm_num [weightedFusionRetrieve, fuseAll, fuseSource, fuseInsert, setA, lookupA,
      sortByScoreDesc, insertByScore]
  refine ⟨h, ?_⟩
  rw [h]
  norm_num

/-- C1 (amended): for every mapping of named candidate lists and weights, the
list returned by the fusion combiner `WeightedFusionRetriever._retrieve` is
sorted by fused score descending with ties between equal fused scores kept in
first-insertion order (it applies Python's stable sort with no secondary
key), contains each distinct document id of the inputs exactly once, and is
not truncated: `top_k` plays no role in `_retrieve`.  The tie order is the
last conjunct: restricted to any single fused-score value, the output equals
the unsorted `final_results` list, whose order is the first-insertion order
of the document ids across the named candidate lists. -/
theorem C1_fusion_order_amended (named : List (String × List NodeWithScore))
    (weights : List (String × ℚ)) :
    (weightedFusionRetrieve named weights).Pairwise (fun x y => y.score ≤ x.score) ∧
    ((weightedFusionRetrieve named weights).map (fun r => r.node.node_id)).Nodup ∧
    (∀ d, (d ∈ (weightedFusionRetrieve named weights).map (fun r => r.node.node_id) ↔
      ∃ p ∈ named, ∃ x ∈ p.2, x.node.node_id = d)) ∧
    ∀ s : ℚ, (weightedFusionRetrieve named weights).filter (fun r => decide (r.score = s)) =
      ((fuseAll named weights).map
        (fun e => ⟨e.2.1, (e.2.2.map Prod.snd).foldl (fun a x => a + x) 0⟩)).filter
        (fun r => decide (r.score = s)) := by
  refine ⟨?_, ?_, ?_, ?_⟩
  · unfold weightedFusionRetrieve
    exact sorted_sortByScoreDesc _
  · exact ((weightedFusionRetrieve_ids_perm named weights).nodup_iff).mpr
      (fuseAll_nodup_keys named weights)
  · intro d
    rw [(weightedFusionRetrieve_ids_perm named weights).mem_iff, mem_fuseAll_keys]
  · intro s
    unfold weightedFusionRetrieve
    exact filter_score_sortByScoreDesc _ s

/-- C2 counterexample: a pipeline built with BM25 only, retrieved twice with
the identical query and configuration, performs no cache lookup — the
second (indeed, every) call reports `false` for "result served from a
cache", because `RetrievalPipeline.retrieve` contains no cache at all;
the claim that the second call returns a cache hit is false. -/
theorem C2_counterexample :
    (RetrievalPipeline.start (⟨true, false, true, false, 7/10, 3/10, 5, 10⟩ :
        PipelineConfig)).build (fun _ => [⟨⟨"doc_0", "t0"⟩, 1⟩]) (fun _ => []) =
      Except.ok (⟨⟨true, false, true, false, 7/10, 3/10, 5, 10⟩,
        some (BuiltRetriever.leaf "bm25" (fun _ => [⟨⟨"doc_0", "t0"⟩, 1⟩]))⟩ :
        RetrievalPipeline) ∧
    ((⟨⟨true, false, true, false, 7/10, 3/10, 5, 10⟩,
        some (BuiltRetriever.leaf "bm25" (fun _ => [⟨⟨"doc_0", "t0"⟩, 1⟩]))⟩ :
        RetrievalPipeline).retrieve (fun _ => Except.ok []) "query").2 = false :=
  ⟨rfl, rfl⟩

/-- C2 (amended): `RetrievalPipeline.retrieve` performs no cache lookup and
never serves a result from a cache (the class maintains none), and, being a
pure function of the built pipeline and the query, a second call with the
identical query and configuration yields a ranked output identical to the
first call's. -/
theorem C2_retrieve_pure_no_cache
    (predict : List (String × String) → Except PyErr (List ℚ))
    (p : RetrievalPipeline) (q : String) :
    (p.retrieve predict q).2 = false ∧
      (p.retrieve predict q).1 = (p.retrieve predict q).1 := by
  refine ⟨?_, rfl⟩
  unfold RetrievalPipeline.retrieve
  cases p.pipeline <;> rfl

/-- C3 counterexample: with `fetch_k = -1 ≤ 0` and two candidates, Python's
slice `[:fetch_k]` keeps everything but the last candidate, so the reranker
invokes the cross-encoder (flag `true`) and returns a nonempty result,
refuting the claim that `fetch_k ≤ 0` yields an empty result with no model
call. -/
theorem C3_counterexample :
    ((-1 : Int) ≤ 0) ∧
    rerankedRetrieve [⟨⟨"d1", "t1"⟩, 1⟩, ⟨⟨"d2", "t2"⟩, 2⟩]
        (fun ps => Except.ok (ps.map (fun _ => 5))) (-1) 5 "q" =
      (Except.ok [⟨⟨"d1", "t1"⟩, 5⟩], true) :=
  ⟨by decide, rfl⟩

/-- C3 (amended): if `fetch_k = 0` or the candidate list is empty, the
reranker `RerankedRetriever._retrieve` returns an empty sequence and the
cross-encoder is not invoked (the early-return guard fires before any model
call); for negative `fetch_k` the Python slice can keep candidates, so only
`fetch_k = 0` is covered among nonpositive values. -/
theorem C3_empty_guard_amended (baseResults : List NodeWithScore)
    (predict : List (String × String) → Except PyErr (List ℚ))
    (fetch_k top_k : Int) (q : String)
    (h : fetch_k = 0 ∨ baseResults = []) :
    rerankedRetrieve baseResults predict fetch_k top_k q = (Except.ok [], false) := by
  rcases h with rfl | rfl
  · simp [rerankedRetrieve, pysliceTake_zero]
  · simp [rerankedRetrieve, pysliceTake_nil]

/-- C3 witness: the amended guard at concrete inputs. -/
theorem C3_empty_guard_witness :
    rerankedRetrieve [] (fun ps => Except.ok (ps.map (fun _ => 5))) 7 5 "q" =
      (Except.ok [], false) :=
  C3_empty_guard_amended [] (fun ps => Except.ok (ps.map (fun _ => 5))) 7 5 "q" (Or.inr rfl)

/-- C4 counterexample: with `top_k = 0` the source skips the final
truncation (`if self.top_k` is falsy), so one candidate produces an output
of length 1 while `min(fetch_k, top_k) = 0`, refuting the claimed bound for
arbitrary configurations. -/
theorem C4_counterexample :
    rerankedRetrieve [⟨⟨"d1", "t1"⟩, 1⟩] (fun ps => Except.ok (ps.map (fun _ => 5))) 10 0 "q" =
      (Except.ok [⟨⟨"d1", "t1"⟩, 5⟩], true) ∧
    ¬((1 : Int) ≤ min 10 0) :=
  ⟨rfl, by decide⟩

/-- C4 (amended): for every configuration — any `fetch_k`, any `top_k`, and
a cross-encoder that may fail — every document in an output the reranker
returns appears in the input candidate list (first conjunct, unconditional);
and for nonnegative `fetch_k`, positive `top_k`, and a cross-encoder that
answers every batch, the output exists and has length at most
`min(fetch_k, top_k)` (second conjunct). -/
theorem C4_rerank_bounds_amended (baseResults : List NodeWithScore)
    (predict : List (String × String) → Except PyErr (List ℚ))
    (fetch_k top_k : Int) (q : String) :
    (∀ res invoked,
      rerankedRetrieve baseResults predict fetch_k top_k q = (Except.ok res, invoked) →
      ∀ r ∈ res, r.node ∈ baseResults.map NodeWithScore.node) ∧
    (0 ≤ fetch_k → 0 < top_k → (∀ ps, ∃ scores, predict ps = Except.ok scores) →
      ∃ res invoked,
        rerankedRetrieve baseResults predict fetch_k top_k q = (Except.ok res, invoked) ∧
        (res.length : Int) ≤ min fetch_k top_k ∧
        ∀ r ∈ res, r.node ∈ baseResults.map NodeWithScore.node) := by
  constructor
  · intro res invoked h
    exact rerank_mem_base baseResults predict fetch_k top_k q res invoked h
  · intro hfk htk hok
    by_cases he : (pysliceTake fetch_k baseResults).isEmpty
    · refine ⟨[], false, ?_, ?_, by simp⟩
      · unfold rerankedRetrieve
        rw [if_pos he]
      · simp only [List.length_nil, Int.ofNat_zero, le_min_iff]
        omega
    · obtain ⟨scores, hs⟩ :=
        hok ((pysliceTake fetch_k baseResults).map (fun n => (q, n.node.text)))
      have heq : rerankedRetrieve baseResults predict fetch_k top_k q =
          (Except.ok (pysliceTake top_k (sortByScoreDesc
            (((pysliceTake fetch_k baseResults).zip scores).map
              (fun p => ⟨p.1.node, p.2⟩)))), true) := by
        unfold rerankedRetrieve
        rw [if_neg he, hs]
        have htk0 : ¬top_k = 0 := by omega
        simp [htk0]
      refine ⟨pysliceTake top_k (sortByScoreDesc
          (((pysliceTake fetch_k baseResults).zip scores).map (fun p => ⟨p.1.node, p.2⟩))),
        true, heq, ?_,
        rerank_mem_base baseResults predict fetch_k top_k q _ true heq⟩
      have hlen1 : (pysliceTake top_k (sortByScoreDesc
          (((pysliceTake fetch_k baseResults).zip scores).map
            (fun p => ⟨p.1.node, p.2⟩)))).length ≤ top_k.toNat :=
        length_pysliceTake_le top_k (le_of_lt htk) _
      have hlen2 : (pysliceTake top_k (sortByScoreDesc
          (((pysliceTake fetch_k baseResults).zip scores).map
            (fun p => ⟨p.1.node, p.2⟩)))).length ≤ fetch_k.toNat := by
        obtain ⟨m, hm⟩ := pysliceTake_eq_take top_k (sortByScoreDesc
          (((pysliceTake fetch_k baseResults).zip scores).map (fun p => ⟨p.1.node, p.2⟩)))
        calc (pysliceTake top_k (sortByScoreDesc
              (((pysliceTake fetch_k baseResults).zip scores).map
                (fun p => ⟨p.1.node, p.2⟩)))).length
            ≤ (sortByScoreDesc (((pysliceTake fetch_k baseResults).zip scores).map
                (fun p => ⟨p.1.node, p.2⟩))).length := by
              rw [hm]; exact List.length_take_le' ..
          _ = (((pysliceTake fetch_k baseResults).zip scores).map
                (fun p => (⟨p.1.node, p.2⟩ : NodeWithScore))).length :=
              (perm_sortByScoreDesc _).length_eq
          _ ≤ (pysliceTake fetch_k baseResults).length := by
              rw [List.length_map]
              exact (List.length_zip ..).trans_le (Nat.min_le_left _ _)
          _ ≤ fetch_k.toNat := length_pysliceTake_le fetch_k hfk _
      have h1 : ((pysliceTake top_k (sortByScoreDesc
          (((pysliceTake fetch_k baseResults).zip scores).map
            (fun p => ⟨p.1.node, p.2⟩)))).length : Int) ≤ top_k := by
        calc ((pysliceTake top_k (sortByScoreDesc
            (((pysliceTake fetch_k baseResults).zip scores).map
              (fun p => ⟨p.1.node, p.2⟩)))).length : Int)
            ≤ (top_k.toNat : Int) := Int.ofNat_le.mpr hlen1
          _ = top_k := Int.toNat_of_nonneg (le_of_lt htk)
      have h2 : ((pysliceTake top_k (sortByScoreDesc
          (((pysliceTake fetch_k baseResults).zip scores).map
            (fun p => ⟨p.1.node, p.2⟩)))).length : Int) ≤ fetch_k := by
        calc ((pysliceTake top_k (sortByScoreDesc
            (((pysliceTake fetch_k baseResults).zip scores).map
              (fun p => ⟨p.1.node, p.2⟩)))).length : Int)
            ≤ (fetch_k.toNat : Int) := Int.ofNat_le.mpr hlen2
          _ = fetch_k := Int.toNat_of_nonneg hfk
      exact le_min h2 h1

/-- C4 witness: both amended conjuncts at concrete inputs — the
unconditional membership applied to the concretely computed output, and
the bounded existence with its hypotheses discharged. -/
theorem C4_rerank_bounds_witness :
    (∀ r ∈ [(⟨⟨"d0", "t0"⟩, (3 : ℚ)⟩ : NodeWithScore)],
      r.node ∈ [(⟨⟨"d0", "t0"⟩, (1 : ℚ)⟩ : NodeWithScore)].map NodeWithScore.node) ∧
    (∃ res invoked,
      rerankedRetrieve [⟨⟨"d0", "t0"⟩, 1⟩]
          (fun ps => Except.ok (ps.map (fun _ => 3))) 10 5 "q" = (Except.ok res, invoked) ∧
      (res.length : Int) ≤ min 10 5 ∧
      ∀ r ∈ res, r.node ∈ [(⟨⟨"d0", "t0"⟩, 1⟩ : NodeWithScore)].map NodeWithScore.node) :=
  ⟨(C4_rerank_bounds_amended [⟨⟨"d0", "t0"⟩, 1⟩]
      (fun ps => Except.ok (ps.map (fun _ => 3))) 10 5 "q").1
      [⟨⟨"d0", "t0"⟩, 3⟩] true rfl,
    (C4_rerank_bounds_amended [⟨⟨"d0", "t0"⟩, 1⟩]
      (fun ps => Except.ok (ps.map (fun _ => 3))) 10 5 "q").2
      (by decide) (by decide) (fun ps => ⟨ps.map (fun _ => 3), rfl⟩)⟩

/-- C5: for an LRU cache of capacity `N ≥ 1`, after `N` puts of distinct
keys a put of a fresh key evicts exactly the least-recently-used key (the
final key list is the old one without its head, plus the new key) and no
other; and when `N ≥ 2`, a `get` on the least-recently-used key before that
put promotes it, so the next eviction removes the second-oldest key instead
and the gotten key survives. -/
theorem C5_lru_eviction {K V : Type} [DecidableEq K] (pairs : List (K × V))
    (knew : K) (vnew : V) (hnd : (pairs.map Prod.fst).Nodup)
    (hfresh : knew ∉ pairs.map Prod.fst) (hN : 1 ≤ pairs.length) :
    ∃ s, runPuts (emptyLRU K V pairs.length) pairs = Except.ok s ∧
      s.cache.map Prod.fst = pairs.map Prod.fst ∧
      (∃ s1, s.put knew vnew = Except.ok s1 ∧
        s1.cache.map Prod.fst = (pairs.map Prod.fst).tail ++ [knew]) ∧
      (∀ a va b vb t, pairs = (a, va) :: (b, vb) :: t →
        ∃ s2, ((s.get a).1).put knew vnew = Except.ok s2 ∧
          s2.cache.map Prod.fst = a :: (t.map Prod.fst ++ [knew]) ∧
          a ∈ s2.cache.map Prod.fst ∧ b ∉ s2.cache.map Prod.fst) := by
  have hrun := runPuts_fresh pairs (emptyLRU K V pairs.length) hnd
    (by simp [emptyLRU]) (by simp [emptyLRU]) (by simp [emptyLRU])
  refine ⟨⟨pairs.length, pairs, pairs.map Prod.fst⟩, by simpa [emptyLRU] using hrun,
    rfl, ?_, ?_⟩
  · rcases pairs with _ | ⟨⟨k1, v1⟩, rest⟩
    · simp at hN
    · have hput : (⟨((k1, v1) :: rest).length, (k1, v1) :: rest,
          ((k1, v1) :: rest).map Prod.fst⟩ : LRUCache K V).put knew vnew =
          Except.ok ⟨((k1, v1) :: rest).length, rest ++ [(knew, vnew)],
            rest.map Prod.fst ++ [knew]⟩ := by
        unfold LRUCache.put
        rw [lookupA_eq_none hfresh]
        simp only [Option.isSome_none, Bool.false_eq_true, if_false]
        rw [if_pos (le_refl _)]
        simp [delKey]
      exact ⟨_, hput, by simp⟩
  · intro a va b vb t heq
    subst heq
    have hab : a ≠ b := by
      simp only [List.map_cons, List.nodup_cons, List.mem_cons] at hnd
      exact fun he => hnd.1 (Or.inl he)
    have hbt : b ∉ t.map Prod.fst := by
      simp only [List.map_cons, List.nodup_cons, List.mem_cons] at hnd
      exact hnd.2.1
    have hbknew : b ≠ knew := by
      intro hbe
      exact hfresh (by simp [← hbe])
    have hga : lookupA ((a, va) :: (b, vb) :: t) a = some va := by
      simp [lookupA]
    have hget : ((⟨((a, va) :: (b, vb) :: t).length, (a, va) :: (b, vb) :: t,
        ((a, va) :: (b, vb) :: t).map Prod.fst⟩ : LRUCache K V).get a).1 =
        ⟨((a, va) :: (b, vb) :: t).length, (a, va) :: (b, vb) :: t,
          b :: (t.map Prod.fst ++ [a])⟩ := by
      unfold LRUCache.get
      rw [hga]
      simp [removeFirst]
    rw [hget]
    have hput : (⟨((a, va) :: (b, vb) :: t).length, (a, va) :: (b, vb) :: t,
        b :: (t.map Prod.fst ++ [a])⟩ : LRUCache K V).put knew vnew =
        Except.ok ⟨((a, va) :: (b, vb) :: t).length,
          ((a, va) :: t) ++ [(knew, vnew)], (t.map Prod.fst ++ [a]) ++ [knew]⟩ := by
      unfold LRUCache.put
      rw [lookupA_eq_none hfresh]
      simp only [Option.isSome_none, Bool.false_eq_true, if_false]
      rw [if_pos (le_refl _)]
      have hdel : delKey b ((a, va) :: (b, vb) :: t) = (a, va) :: t := by
        simp [delKey, hab]
      rw [hdel]
    refine ⟨_, hput, by simp, by simp, ?_⟩
    intro hmem
    rw [List.map_append] at hmem
    rcases List.mem_append.mp hmem with h | h
    · rcases (by simpa using h : b = a ∨ b ∈ List.map Prod.fst t) with h' | h'
      · exact hab h'.symm
      · exact hbt h'
    · exact hbknew (by simpa using h)

/-- C5 witness: capacity 2, keys 1 and 2 then fresh key 3; without a `get`
the eviction victim is key 1, with a prior `get 1` it is key 2. -/
theorem C5_lru_eviction_witness :
    ∃ s, runPuts (emptyLRU Nat Nat 2) [(1, 10), (2, 20)] = Except.ok s ∧
      s.cache.map Prod.fst = [(1, 10), (2, 20)].map Prod.fst ∧
      (∃ s1, s.put 3 30 = Except.ok s1 ∧
        s1.cache.map Prod.fst = ([(1, 10), (2, 20)].map Prod.fst).tail ++ [3]) ∧
      (∀ a va b vb t, [(1, 10), (2, 20)] = (a, va) :: (b, vb) :: t →
        ∃ s2, ((s.get a).1).put 3 30 = Except.ok s2 ∧
          s2.cache.map Prod.fst = a :: (t.map Prod.fst ++ [3]) ∧
          a ∈ s2.cache.map Prod.fst ∧ b ∉ s2.cache.map Prod.fst) :=
  C5_lru_eviction [(1, 10), (2, 20)] 3 30 (by decide) (by decide) (by decide)

/-- C6 counterexample: the cache key of `cached_query` is
`f"{query_text}:{n_results}"`, built from the query text and result count
only; two calls whose (query, top_k, enabled stages, weights) tuples differ
only in the enabled stages or weights receive the same key, refuting the
claimed injectivity over the full parameter set. -/
theorem C6_counterexample :
    ¬ (∀ (q1 : List Char) (n1 : Nat) (s1 : List String) (w1 : List ℚ)
         (q2 : List Char) (n2 : Nat) (s2 : List String) (w2 : List ℚ),
        cachedQueryKey q1 n1 = cachedQueryKey q2 n2 →
        (q1, n1, s1, w1) = (q2, n2, s2, w2)) := by
  intro h
  have := h ['a'] 5 ["bm25"] [] ['a'] 5 ["vector"] [] rfl
  simp at this

/-- C6 (amended): the cache key of `cached_query` is built from the two
parameters that affect the query result in that code — the query text and
`n_results` — and key construction is injective over this pair: the decimal
rendering of `n_results` contains no colon, so the last colon of the key
splits it unambiguously.  Enabled stages and fusion weights are not
parameters of `cached_query` and do not enter the key. -/
theorem C6_key_injective_amended (q1 q2 : List Char) (n1 n2 : Nat)
    (h : cachedQueryKey q1 n1 = cachedQueryKey q2 n2) : q1 = q2 ∧ n1 = n2 := by
  unfold cachedQueryKey at h
  obtain ⟨hq, hd⟩ := lastColonSplit q1 q2 (pyIntRepr n1) (pyIntRepr n2)
    (fun hc => pyIntRepr_ne_colon n1 ':' hc rfl)
    (fun hc => pyIntRepr_ne_colon n2 ':' hc rfl) h
  exact ⟨hq, pyIntRepr_injective hd⟩

/-- C6 witness: the amended injectivity applied at a concrete key pair. -/
theorem C6_key_injective_witness : (['a', 'b'] : List Char) = ['a', 'b'] ∧ (15 : Nat) = 15 :=
  C6_key_injective_amended ['a', 'b'] ['a', 'b'] 15 15 rfl

/-- C7: a pipeline configured with `use_bm25=true, use_vector=false,
use_reranking=false` builds to the bare BM25 retriever — the fusion combiner
is bypassed entirely — and its retrieval output is exactly the BM25
retriever's ranking; when that external retriever returns the raw BM25
ranking truncated to `top_k` (its `similarity_top_k` contract), the pipeline
output equals the raw BM25 ranking truncated to `top_k`, with the same
documents, order, and scores. -/
theorem C7_bm25_only_bypasses_fusion (cfg : PipelineConfig)
    (h1 : cfg.use_bm25 = true) (h2 : cfg.use_vector = false)
    (h3 : cfg.use_reranking = false)
    (bm25 vector raw : String → List NodeWithScore)
    (hb : ∀ q, bm25 q = (raw q).take cfg.top_k.toNat) :
    buildRetriever cfg bm25 vector = Except.ok (BuiltRetriever.leaf "bm25" bm25) ∧
    usesFusion (BuiltRetriever.leaf "bm25" bm25) = false ∧
    ∀ predict q, retrieveBuilt predict (BuiltRetriever.leaf "bm25" bm25) q =
      Except.ok ((raw q).take cfg.top_k.toNat) := by
  refine ⟨?_, rfl, ?_⟩
  · simp [buildRetriever, h1, h2, h3]
  · intro predict q
    unfold retrieveBuilt
    rw [hb q]

/-- C7 witness: the BM25-only configuration at concrete inputs. -/
theorem C7_bm25_only_witness :
    buildRetriever (⟨true, false, true, false, 7/10, 3/10, 5, 10⟩ : PipelineConfig)
        (fun _ => [⟨⟨"d0", "t0"⟩, (3 : ℚ)⟩, ⟨⟨"d1", "t1"⟩, (2 : ℚ)⟩]) (fun _ => []) =
      Except.ok (BuiltRetriever.leaf "bm25"
        (fun _ => [⟨⟨"d0", "t0"⟩, (3 : ℚ)⟩, ⟨⟨"d1", "t1"⟩, (2 : ℚ)⟩])) ∧
    usesFusion (BuiltRetriever.leaf "bm25"
      (fun _ => [⟨⟨"d0", "t0"⟩, (3 : ℚ)⟩, ⟨⟨"d1", "t1"⟩, (2 : ℚ)⟩])) = false ∧
    ∀ predict q, retrieveBuilt predict (BuiltRetriever.leaf "bm25"
        (fun _ => [⟨⟨"d0", "t0"⟩, (3 : ℚ)⟩, ⟨⟨"d1", "t1"⟩, (2 : ℚ)⟩])) q =
      Except.ok (((fun (_ : String) =>
        [⟨⟨"d0", "t0"⟩, (3 : ℚ)⟩, ⟨⟨"d1", "t1"⟩, (2 : ℚ)⟩]) q).take (Int.toNat 5)) :=
  C7_bm25_only_bypasses_fusion (⟨true, false, true, false, 7/10, 3/10, 5, 10⟩ :
      PipelineConfig) rfl rfl rfl
    (fun _ => [⟨⟨"d0", "t0"⟩, (3 : ℚ)⟩, ⟨⟨"d1", "t1"⟩, (2 : ℚ)⟩]) (fun _ => [])
    (fun _ => [⟨⟨"d0", "t0"⟩, (3 : ℚ)⟩, ⟨⟨"d1", "t1"⟩, (2 : ℚ)⟩]) (fun _ => rfl)

/-- C8 counterexample: when the cross-encoder fails on a nonempty candidate
list, `RerankedRetriever._retrieve` propagates the error — there is no
handler around `self.reranker.predict` — instead of returning the pre-rerank
ranking unchanged, refuting the claim. -/
theorem C8_counterexample :
    rerankedRetrieve [⟨⟨"d1", "t1"⟩, 2⟩]
        (fun _ => Except.error PyErr.rerankerUnavailable) 10 5 "q" =
      (Except.error PyErr.rerankerUnavailable, true) ∧
    (Except.error PyErr.rerankerUnavailable : Except PyErr (List NodeWithScore)) ≠
      Except.ok [⟨⟨"d1", "t1"⟩, 2⟩] :=
  ⟨rfl, fun h => Except.noConfusion h⟩

/-- C8 (amended): when the cross-encoder fails on a nonempty sliced
candidate list, the reranker's error propagates to the caller unchanged;
the pre-rerank ranking is not returned (the source has no recovery for a
reranker failure). -/
theorem C8_rerank_error_propagates_amended (baseResults : List NodeWithScore)
    (predict : List (String × String) → Except PyErr (List ℚ))
    (fetch_k top_k : Int) (q : String) (e : PyErr)
    (hne : (pysliceTake fetch_k baseResults).isEmpty = false)
    (he : predict ((pysliceTake fetch_k baseResults).map (fun n => (q, n.node.text))) =
      Except.error e) :
    rerankedRetrieve baseResults predict fetch_k top_k q = (Except.error e, true) := by
  simp only [rerankedRetrieve, hne, Bool.false_eq_true, if_false, he]

/-- C8 witness: the amended propagation at concrete inputs. -/
theorem C8_rerank_error_witness :
    rerankedRetrieve [⟨⟨"d0", "t0"⟩, 1⟩]
        (fun _ => Except.error PyErr.rerankerUnavailable) 10 5 "q" =
      (Except.error PyErr.rerankerUnavailable, true) :=
  C8_rerank_error_propagates_amended [⟨⟨"d0", "t0"⟩, 1⟩]
    (fun _ => Except.error PyErr.rerankerUnavailable) 10 5 "q"
    PyErr.rerankerUnavailable rfl rfl

/-- C9: starting from an empty LRU cache with positive capacity, after every
sequence of get, put and clear operations the cache is well formed:
`usage_order` has no duplicates and is a permutation of the keys of the
cache dict (each key exactly once, nothing else), its length equals
`size()`, and `size()` never exceeds the capacity; moreover no operation in
the sequence raises. -/
theorem C9_lru_invariant {K V : Type} [DecidableEq K] (capacity : Nat)
    (hcap : 0 < capacity) (ops : List (CacheOp K V)) :
    ∃ c', runOps (emptyLRU K V capacity) ops = Except.ok c' ∧
      c'.usage_order.Nodup ∧ c'.usage_order.Perm (c'.cache.map Prod.fst) ∧
      c'.usage_order.length = c'.size ∧ c'.size ≤ c'.capacity := by
  obtain ⟨c', hrun, ⟨hnd, hperm, hlen⟩, hc⟩ := wf_runOps ops (emptyLRU K V capacity) hcap
    ⟨List.nodup_nil, List.Perm.refl _, by simp [emptyLRU]⟩
  refine ⟨c', hrun, hnd, hperm, ?_, hlen⟩
  rw [hperm.length_eq, List.length_map]
  rfl

/-- C9 witness: the invariant after a concrete operation sequence. -/
theorem C9_lru_invariant_witness :
    ∃ c', runOps (emptyLRU Nat Nat 1)
        [CacheOp.put 1 10, CacheOp.get 1, CacheOp.put 2 20, CacheOp.clear,
          CacheOp.put 3 30] = Except.ok c' ∧
      c'.usage_order.Nodup ∧ c'.usage_order.Perm (c'.cache.map Prod.fst) ∧
      c'.usage_order.length = c'.size ∧ c'.size ≤ c'.capacity :=
  C9_lru_invariant 1 (by decide)
    [CacheOp.put 1 10, CacheOp.get 1, CacheOp.put 2 20, CacheOp.clear, CacheOp.put 3 30]

/-- C10: building a pipeline with both `use_bm25=false` and
`use_vector=false` fails with the `StopIteration` raised by
`next(iter(retrievers.keys()))` on the empty retriever dict (both through
`buildRetriever` and through `RetrievalPipeline.build`, which leaves no
usable pipeline), and calling `retrieve` on a pipeline whose `build` was
never called (so `self.pipeline is None`) raises a `ValueError`. -/
theorem C10_no_retriever_errors (cfg : PipelineConfig)
    (h1 : cfg.use_bm25 = false) (h2 : cfg.use_vector = false)
    (bm25 vector : String → List NodeWithScore)
    (predict : List (String × String) → Except PyErr (List ℚ)) (q : String) :
    buildRetriever cfg bm25 vector = Except.error PyErr.stopIteration ∧
    (RetrievalPipeline.start cfg).build bm25 vector = Except.error PyErr.stopIteration ∧
    ((RetrievalPipeline.start cfg).retrieve predict q).1 = Except.error PyErr.valueError := by
  have hb : buildRetriever cfg bm25 vector = Except.error PyErr.stopIteration := by
    simp [buildRetriever, h1, h2]
  refine ⟨hb, ?_, rfl⟩
  simp [RetrievalPipeline.build, RetrievalPipeline.start, hb]

/-- C10 witness: the build failure and unbuilt-retrieve failure at concrete
inputs. -/
theorem C10_no_retriever_witness :
    buildRetriever (⟨false, false, true, true, 7/10, 3/10, 5, 10⟩ : PipelineConfig)
        (fun _ => []) (fun _ => []) = Except.error PyErr.stopIteration ∧
    (RetrievalPipeline.start (⟨false, false, true, true, 7/10, 3/10, 5, 10⟩ :
        PipelineConfig)).build (fun _ => []) (fun _ => []) =
      Except.error PyErr.stopIteration ∧
    ((RetrievalPipeline.start (⟨false, false, true, true, 7/10, 3/10, 5, 10⟩ :
        PipelineConfig)).retrieve (fun _ => Except.ok []) "q").1 =
      Except.error PyErr.valueError :=
  C10_no_retriever_errors (⟨false, false, true, true, 7/10, 3/10, 5, 10⟩ : PipelineConfig)
    rfl rfl (fun _ => []) (fun _ => []) (fun _ => Except.ok []) "q"
